import Mathlib

/-!
Shallow embedding of the AzureStuff crawl-and-curate pipeline
(src/crawler.py and src/blob_uploader.py) and proofs of the spec claims.

Strings are modelled as Lean `String` / `List Char`; Python dictionaries as
association lists in insertion order with unique keys; the fetch engine and
the classification oracle as explicit function parameters; the Azure
container as a list of named blobs.
-/

/-- Model of Python `str.replace(pat, rep)` on character lists: replaces every
non-overlapping occurrence of `pat`, scanning left to right.  For the
(unused) degenerate pattern `[]` we return the string unchanged. -/
def replaceAll (pat rep : List Char) (s : List Char) : List Char :=
  if hp : pat = [] then s
  else
    match s with
    | [] => []
    | c :: rest =>
      if pat.isPrefixOf (c :: rest) then
        rep ++ replaceAll pat rep ((c :: rest).drop pat.length)
      else
        c :: replaceAll pat rep rest
termination_by s.length
decreasing_by
  · have hlen : 0 < pat.length := List.length_pos.mpr hp
    simp [List.length_drop]
    omega
  · simp

/-- Embedding of the `short_link` computation in `Crawler._async_crawl_links`
(src/crawler.py lines 164-170):
`link.replace("https://www.", "").replace(".com", "").replace("https:", "").replace("/", "_")`. -/
def short_link (link : String) : String :=
  ⟨replaceAll "/".toList "_".toList
    (replaceAll "https:".toList []
      (replaceAll ".com".toList []
        (replaceAll "https://www.".toList [] link.toList)))⟩

/-- Helper for the spec-side key deriver: remove the first occurrence of
`pat` from `s`, if any. -/
def removeFirst (pat : List Char) : List Char → List Char
  | [] => []
  | c :: rest =>
    if pat.isPrefixOf (c :: rest) then rest.drop (pat.length - 1)
    else c :: removeFirst pat rest

/-- Modelled from the spec (section 4.2 Key Deriver), for comparison with the
code-side `short_link`: remove a scheme prefix `https://` or `http://`,
remove a leading `www.`, remove a `.com` token if present, replace every
remaining `/` with `_`, then truncate to the fixed maximum of 50 characters. -/
def specDeriveKey (u : String) : String :=
  let s1 :=
    if "https://".toList.isPrefixOf u.toList then u.toList.drop 8
    else if "http://".toList.isPrefixOf u.toList then u.toList.drop 7
    else u.toList
  let s2 := if "www.".toList.isPrefixOf s1 then s1.drop 4 else s1
  let s3 := removeFirst ".com".toList s2
  let s4 := s3.map (fun c => if c = '/' then '_' else c)
  ⟨s4.take 50⟩

/-- Model of Python `str.lower()` (ASCII lowering, per character). -/
def lowerStr (s : String) : String := ⟨s.data.map Char.toLower⟩

/-- Embedding of the verdict test in `Crawler.check_with_ai` (src/crawler.py
lines 248-250): `answer = response...content.lower()` followed by
`if "useless" in answer`. -/
def containsUseless (response : String) : Bool :=
  decide ("useless".toList <:+: (lowerStr response).data)

/-- Embedding of the first loop of `Crawler.check_with_ai` (src/crawler.py
lines 197-252): walk the dictionary entries in order and collect the keys
whose classified value is judged useless.  The oracle maps a content value to
the response text of the classification call. -/
def keys_to_remove (oracle : String → String) : List (String × String) → List String
  | [] => []
  | kv :: rest =>
    if containsUseless (oracle kv.2) then kv.1 :: keys_to_remove oracle rest
    else keys_to_remove oracle rest

/-- Embedding of the second loop of `Crawler.check_with_ai` (src/crawler.py
lines 255-256): `clean_data_dict.pop(useless_key, None)` for each collected
key.  A dictionary pop removes the (first, hence with unique keys the only)
entry with that key. -/
def popKeys : List (String × String) → List String → List (String × String)
  | d, [] => d
  | d, k :: ks => popKeys (d.eraseP (fun kv => kv.1 == k)) ks

/-- Embedding of `Crawler.check_with_ai` (src/crawler.py lines 177-258):
classify every entry, then remove the collected keys. -/
def check_with_ai (oracle : String → String) (m : List (String × String)) :
    List (String × String) :=
  popKeys m (keys_to_remove oracle m)

/-- Oracle and map fixtures used by the witnesses below. -/
def oracleA : String → String :=
  fun v => if v = "err" then "This is USELESS." else "quite useful"

/-- Map fixture with two entries and distinct keys. -/
def mapA : List (String × String) := [("home", "welcome"), ("error", "err")]

/-- Fallible embedding of the first loop of `Crawler.check_with_ai`
(src/crawler.py lines 203-252), for reasoning about oracle failure.  The
state `(dict, pending entries, collected keys)` is stepped entry by entry;
the loop body only reads the dictionary and appends to `keys_to_remove`, so
the dictionary component is threaded through unchanged, and an oracle error
aborts the loop at that entry, returning the state reached so far. -/
def classifyPhase {ε : Type} (oracle : String → Except ε String) :
    List (String × String) → List (String × String) → List String →
    Option ε × List String × List (String × String)
  | dict, [], acc => (none, acc, dict)
  | dict, kv :: rest, acc =>
    match oracle kv.2 with
    | .error e => (some e, acc, dict)
    | .ok ans =>
      classifyPhase oracle dict rest
        (if containsUseless ans then acc ++ [kv.1] else acc)

/-- Fallible embedding of `Crawler.check_with_ai` as a whole: run the
classification loop over all entries; if it raised, the run ends with the
dictionary in the state it had at the error; otherwise the collected keys
are popped.  The first component is the raised error, if any; the second is
the dictionary when the call ends. -/
def check_with_aiRun {ε : Type} (oracle : String → Except ε String)
    (m : List (String × String)) : Option ε × List (String × String) :=
  match classifyPhase oracle m m [] with
  | (some e, _, dict) => (some e, dict)
  | (none, acc, dict) => (none, popKeys dict acc)

/-- Oracle fixture that fails on the content "err". -/
def oracleE : String → Except String String :=
  fun v => if v = "err" then Except.error "rate limited" else Except.ok "useful"

/-- Model of a Python dictionary assignment `d[k] = v`: if the key is
present, the entry keeps its position and its value is replaced; otherwise a
new entry is appended at the end. -/
def insertDict : List (String × String) → String → String → List (String × String)
  | [], k, v => [(k, v)]
  | kv :: rest, k, v =>
    if kv.1 == k then (k, v) :: rest else kv :: insertDict rest k v

/-- Dictionary lookup: the value stored under a key, if any. -/
def lookupD (d : List (String × String)) (k : String) : Option String :=
  (d.find? (fun kv => kv.1 == k)).map Prod.snd

/-- Embedding of the harvest loop of `Crawler._async_crawl_links`
(src/crawler.py lines 151-174): starting from the empty dictionary, process
the links in order, fetch each one and store the fetched markdown under the
derived `short_link` key.  `fetch` models the body text the page fetcher
returns for a link. -/
def harvest (fetch : String → String) (links : List String) : List (String × String) :=
  links.foldl (fun d link => insertDict d (short_link link) (fetch link)) []

/-- Model of Python `href.rstrip("/")`: remove every trailing `/`. -/
def rstripSlash (s : String) : String :=
  ⟨(s.data.reverse.dropWhile (fun c => c == '/')).reverse⟩

/-- Embedding of the link set built by `Crawler._async_get_links`
(src/crawler.py line 107): the set comprehension over the hrefs returned by
the fetcher, each stripped of trailing slashes.  `hrefs` models the list
`result.links["internal"]` in the order the fetcher returns it. -/
def async_get_links (hrefs : List String) : Finset String :=
  (hrefs.map rstripSlash).toFinset

/-- Modelled from the Python standard library behaviour of
`urllib.parse.urlparse(url).netloc` as used by `BlobUploader` on absolute,
schemed URLs: drop the scheme (everything up to and including the first
`:`), then, if the remainder starts with `//`, the network location is the
text up to the next `/`, `?` or `#`; otherwise it is empty. -/
def netlocOf (url : String) : String :=
  let cs := url.data
  let afterScheme := if ':' ∈ cs then (cs.dropWhile (fun c => c != ':')).drop 1 else cs
  if "//".toList.isPrefixOf afterScheme then
    ⟨(afterScheme.drop 2).takeWhile (fun c => c != '/' && c != '?' && c != '#')⟩
  else ⟨[]⟩

/-- Model of Python `str.split(sep)` for a one-character separator: always
returns at least one (possibly empty) piece. -/
def splitOnChar (sep : Char) : List Char → List (List Char)
  | [] => [[]]
  | c :: rest =>
    let r := splitOnChar sep rest
    if c == sep then [] :: r else (c :: r.headI) :: r.tail

/-- Embedding of `BlobUploader.get_container_name` (src/blob_uploader.py
lines 48-66): take the netloc of the website link, strip a leading `www.`
by slicing off four characters, split on `.` and take the first part. -/
def get_container_name (website_link : String) : String :=
  let netloc := netlocOf website_link
  let netloc2 : String :=
    if "www.".toList.isPrefixOf netloc.data then ⟨netloc.data.drop 4⟩ else netloc
  ⟨(splitOnChar '.' netloc2.data).headI⟩

/-- Modelled from the spec (section 3, SiteIdentity): the first DNS label of
the seed URL host after stripping a leading `www.`. -/
def specSiteIdentity (u : String) : String :=
  let host := netlocOf u
  let host2 : String :=
    if "www.".toList.isPrefixOf host.data then ⟨host.data.drop 4⟩ else host
  ⟨host2.data.takeWhile (fun c => c != '.')⟩

/-- Model of `container_client.delete_blob(name)`: remove the (unique) blob
with that name from the container. -/
def deleteBlob (c : List (String × String)) (n : String) : List (String × String) :=
  c.eraseP (fun b => b.1 == n)

/-- Embedding of the clearing loop in `BlobUploader.create_or_update_blob`
(src/blob_uploader.py lines 87-88): iterate over the snapshot returned by
`list_blobs()` and delete each listed blob from the container. -/
def clearContainer (bs : List (String × String)) : List (String × String) :=
  bs.foldl (fun c b => deleteBlob c b.1) bs

/-- Embedding of the upload loop in `BlobUploader.create_or_update_blob`
(src/blob_uploader.py lines 91-98): upload each file as a block blob named
`<key>.txt`.  `upload_blob` without an overwrite flag raises if a blob of
that name already exists; in that case the loop aborts with the container in
its partial state (first component `some ()` marks the raised error). -/
def uploadAll : List (String × String) → List (String × String) →
    Option Unit × List (String × String)
  | [], c => (none, c)
  | kv :: rest, c =>
    if c.any (fun b => b.1 == kv.1 ++ ".txt") then (some (), c)
    else uploadAll rest (c ++ [(kv.1 ++ ".txt", kv.2)])

/-- Embedding of `BlobUploader.create_or_update_blob` (src/blob_uploader.py
lines 68-100) acting on the state of the target container: `none` means the
container does not exist yet (creation succeeds and the upload starts from
an empty container); `some bs` means creation raises the container-exists
error, which is caught locally, every existing blob is deleted, and the
upload then proceeds. -/
def create_or_update_blob (files : List (String × String))
    (container : Option (List (String × String))) :
    Option Unit × List (String × String) :=
  match container with
  | none => uploadAll files []
  | some bs => uploadAll files (clearContainer bs)

/-- Container and file fixtures for the C5 witness. -/
def oldBlobs : List (String × String) := [("stale.txt", "old one"), ("gone.txt", "old two")]

/-- New files fixture with distinct keys. -/
def newFiles : List (String × String) := [("about", "about text"), ("contact", "contact text")]

/-- Fallible harvest loop of `Crawler._async_crawl_links` (src/crawler.py
lines 151-174): each page fetch may raise; a raised fetch error aborts the
loop and propagates (there is no try/except around the loop body). -/
def harvestE {ε : Type} (fetch : String → Except ε String) :
    List String → List (String × String) → Except ε (List (String × String))
  | [], d => Except.ok d
  | l :: rest, d =>
    match fetch l with
    | Except.error e => Except.error e
    | Except.ok md => harvestE fetch rest (insertDict d (short_link l) md)

/-- Fallible curation stage: `Crawler.check_with_ai` with a fallible oracle;
an oracle error propagates out of the call (src/crawler.py lines 203-252
have no try/except). -/
def curateE {ε : Type} (oracle : String → Except ε String)
    (m : List (String × String)) : Except ε (List (String × String)) :=
  match check_with_aiRun oracle m with
  | (some e, _) => Except.error e
  | (none, d) => Except.ok d

/-- Curate-then-persist tail of the run: classify the harvested map and,
only if curation succeeds, write the curated map to the sink container. -/
def runAfterHarvest {ε : Type} (oracle : String → Except ε String)
    (m : List (String × String)) (container : Option (List (String × String))) :
    Except ε (Option Unit) × Option (List (String × String)) :=
  match curateE oracle m with
  | Except.error e => (Except.error e, container)
  | Except.ok m2 =>
    let r := create_or_update_blob m2 container
    (Except.ok r.1, some r.2)

/-- Harvest-then-persist tail of the run, entered once discovery succeeded. -/
def runAfterDiscovery {ε : Type} (fetch : String → Except ε String)
    (oracle : String → Except ε String) (links : List String)
    (container : Option (List (String × String))) :
    Except ε (Option Unit) × Option (List (String × String)) :=
  match harvestE fetch links [] with
  | Except.error e => (Except.error e, container)
  | Except.ok m => runAfterHarvest oracle m container

/-- Embedding of the orchestrated run (src/blob_uploader.py lines 102-111
composed with the curation stage the crawler module chains before
persisting, spec section 4.5): discover the links, harvest every page,
curate the harvest, and only then write the curated map to the sink
container.  `discovered` is the outcome of link discovery (which may itself
raise), and the second component of the result is the state of the target
container when the run ends.  No stage is wrapped in a handler, so an error
at any stage leaves the container untouched. -/
def runPipeline {ε : Type} (discovered : Except ε (List String))
    (fetch : String → Except ε String) (oracle : String → Except ε String)
    (container : Option (List (String × String))) :
    Except ε (Option Unit) × Option (List (String × String)) :=
  match discovered with
  | Except.error e => (Except.error e, container)
  | Except.ok links => runAfterDiscovery fetch oracle links container

/-- Fetch fixture returning fixed content. -/
def fetchA : String → String := fun _ => "page content"

/-- Link fixture containing two distinct URLs that derive the same key. -/
def linksA : List String := ["https://www.site.com/a", "site/a"]

/-- Key fact about `replaceAll`: if the pattern occurs nowhere in the string
(as a contiguous substring), the string is returned unchanged. -/
theorem replaceAll_no_occurrence (pat rep : List Char) :
    ∀ s : List Char, ¬ pat <:+: s → replaceAll pat rep s = s := by
  intro s
  induction s using replaceAll.induct pat rep with
  | case1 s hpat => intro _; rw [replaceAll.eq_def]; simp [hpat]
  | case2 hpat => intro _; rw [replaceAll.eq_def]; simp [hpat]
  | case3 hpat c rest hpre ih =>
    intro hni
    exact absurd (List.IsPrefix.isInfix (List.isPrefixOf_iff_prefix.mp hpre)) hni
  | case4 hpat c rest hpre ih =>
    intro hni
    have h1 : ¬ pat <:+: rest := fun h => hni (List.infix_cons h)
    rw [replaceAll.eq_def]
    simp [hpat, hpre, ih h1]

/-- Replacing a single character is pointwise mapping. -/
theorem replaceAll_singleton (a b : Char) :
    ∀ s : List Char, replaceAll [a] [b] s = s.map (fun c => if c = a then b else c) := by
  intro s
  induction s with
  | nil => rw [replaceAll.eq_def]; simp
  | cons c rest ih =>
    rw [replaceAll.eq_def]
    by_cases hca : c = a
    · subst hca
      simp [List.isPrefixOf, ih]
    · simp [List.isPrefixOf, hca, ih, Ne.symm hca]

/-- A pattern containing a character other than `a` is not an infix of
`List.replicate n a`. -/
theorem not_infix_replicate (a x : Char) (pat : List Char) (hx : x ∈ pat) (hxa : x ≠ a)
    (n : Nat) : ¬ pat <:+: List.replicate n a :=
  fun h => hxa (List.eq_of_mem_replicate (h.subset hx))

/-- On a string of `n` letters `a`, the key derivation is the identity. -/
theorem short_link_replicate (n : Nat) :
    short_link ⟨List.replicate n 'a'⟩ = ⟨List.replicate n 'a'⟩ := by
  unfold short_link
  have h0 : (⟨List.replicate n 'a'⟩ : String).toList = List.replicate n 'a' := rfl
  rw [h0]
  rw [replaceAll_no_occurrence _ _ _ (not_infix_replicate 'a' 'h' _ (by decide) (by decide) n)]
  rw [replaceAll_no_occurrence _ _ _ (not_infix_replicate 'a' '.' _ (by decide) (by decide) n)]
  rw [replaceAll_no_occurrence _ _ _ (not_infix_replicate 'a' 'h' _ (by decide) (by decide) n)]
  rw [replaceAll_no_occurrence _ _ _ (not_infix_replicate 'a' '/' _ (by decide) (by decide) n)]

/-- Every collected key is a key of the input dictionary. -/
theorem keys_to_remove_subset (oracle : String → String) :
    ∀ m : List (String × String), ∀ k ∈ keys_to_remove oracle m, k ∈ m.map Prod.fst := by
  intro m
  induction m with
  | nil => simp [keys_to_remove]
  | cons kv rest ih =>
    intro k hk
    rw [keys_to_remove] at hk
    by_cases hu : containsUseless (oracle kv.2)
    · rw [if_pos hu] at hk
      rcases List.mem_cons.mp hk with h | h
      · simp [h]
      · simp [ih k h]
    · rw [if_neg hu] at hk
      simp [ih k hk]

/-- Popping keys that do not mention the head entry leaves the head in place. -/
theorem popKeys_cons_not_mem (kv : String × String) :
    ∀ ks : List String, ∀ d : List (String × String), kv.1 ∉ ks →
      popKeys (kv :: d) ks = kv :: popKeys d ks := by
  intro ks
  induction ks with
  | nil => intro d _; rfl
  | cons k ks ih =>
    intro d hk
    have h1 : kv.1 ≠ k := fun h => hk (by simp [h])
    have h2 : kv.1 ∉ ks := fun h => hk (by simp [h])
    rw [popKeys, popKeys, List.eraseP_cons_of_neg (by simpa using h1), ih _ h2]

/-- The result of popping keys is a sublist of the input dictionary. -/
theorem popKeys_sublist :
    ∀ ks : List String, ∀ d : List (String × String), List.Sublist (popKeys d ks) d := by
  intro ks
  induction ks with
  | nil => intro d; exact List.Sublist.refl d
  | cons k ks ih =>
    intro d
    exact (ih _).trans (List.eraseP_sublist d)

/-- Main curator lemma: with unique keys (a dictionary invariant),
`check_with_ai` is exactly the filter that retains the entries whose oracle
response does not contain "useless" (case-insensitively). -/
theorem check_with_ai_eq_filter (oracle : String → String) :
    ∀ m : List (String × String), (m.map Prod.fst).Nodup →
      check_with_ai oracle m = m.filter (fun kv => !containsUseless (oracle kv.2)) := by
  intro m
  induction m with
  | nil => intro _; rfl
  | cons kv rest ih =>
    intro hnd
    rw [List.map_cons, List.nodup_cons] at hnd
    obtain ⟨hk, hnd⟩ := hnd
    by_cases hu : containsUseless (oracle kv.2)
    · have h1 : check_with_ai oracle (kv :: rest) = check_with_ai oracle rest := by
        unfold check_with_ai
        rw [keys_to_remove, if_pos hu, popKeys,
          List.eraseP_cons_of_pos (by simp)]
      rw [h1, ih hnd, List.filter_cons, hu]
      simp
    · have hmem : kv.1 ∉ keys_to_remove oracle rest :=
        fun h => hk (keys_to_remove_subset oracle rest kv.1 h)
      have h1 : check_with_ai oracle (kv :: rest) = kv :: check_with_ai oracle rest := by
        unfold check_with_ai
        rw [keys_to_remove, if_neg hu, popKeys_cons_not_mem kv _ _ hmem]
      rw [h1, ih hnd, List.filter_cons]
      simp [hu]

/-- With unique keys, two entries of the dictionary with the same key are the
same entry. -/
theorem keys_inj {m : List (String × String)} (hnd : (m.map Prod.fst).Nodup) :
    ∀ a ∈ m, ∀ b ∈ m, a.1 = b.1 → a = b := by
  induction m with
  | nil => simp
  | cons kv rest ih =>
    rw [List.map_cons, List.nodup_cons] at hnd
    obtain ⟨hk, hnd⟩ := hnd
    intro a ha b hb hab
    rcases List.mem_cons.mp ha with ha | ha <;> rcases List.mem_cons.mp hb with hb | hb
    · rw [ha, hb]
    · exfalso
      apply hk
      rw [← ha, hab]
      exact List.mem_map_of_mem Prod.fst hb
    · exfalso
      apply hk
      rw [← hb, ← hab]
      exact List.mem_map_of_mem Prod.fst ha
    · exact ih hnd a ha b hb hab

/-- Characterization of the collected keys: a key is collected exactly when
some entry with that key has a response containing "useless". -/
theorem mem_keys_to_remove (oracle : String → String) :
    ∀ m : List (String × String), ∀ k : String,
      k ∈ keys_to_remove oracle m ↔
        ∃ v, (k, v) ∈ m ∧ containsUseless (oracle v) = true := by
  intro m
  induction m with
  | nil => simp [keys_to_remove]
  | cons kv rest ih =>
    intro k
    rw [keys_to_remove]
    by_cases hu : containsUseless (oracle kv.2) = true
    · simp only [if_pos hu, List.mem_cons, ih]
      constructor
      · rintro (h | ⟨v, hv, huv⟩)
        · exact ⟨kv.2, Or.inl (by rw [h]), hu⟩
        · exact ⟨v, Or.inr hv, huv⟩
      · rintro ⟨v, hv | hv, huv⟩
        · exact Or.inl (congrArg Prod.fst hv)
        · exact Or.inr ⟨v, hv, huv⟩
    · simp only [if_neg hu, ih, List.mem_cons]
      constructor
      · rintro ⟨v, hv, huv⟩
        exact ⟨v, Or.inr hv, huv⟩
      · rintro ⟨v, hv | hv, huv⟩
        · exact absurd (show containsUseless (oracle kv.2) = true by
            rw [← hv]; exact huv) hu
        · exact ⟨v, hv, huv⟩

/-- C2: for every content map with unique keys and every oracle response
function, `check_with_ai` removes exactly those entries whose response,
lowered to lower case, contains the substring "useless", and retains every
entry whose response is any other text. -/
theorem check_with_ai_removes_exactly_useless (oracle : String → String)
    (m : List (String × String)) (hnd : (m.map Prod.fst).Nodup) (k v : String) :
    (k, v) ∈ check_with_ai oracle m ↔
      (k, v) ∈ m ∧ containsUseless (oracle v) = false := by
  rw [check_with_ai_eq_filter oracle m hnd, List.mem_filter]
  simp

/-- Witness for C2 at a concrete map and oracle; also checks the spec example
that the verdict "This is USELESS." triggers removal. -/
theorem check_with_ai_removes_exactly_useless_witness :
    (mapA.map Prod.fst).Nodup ∧
    containsUseless "This is USELESS." = true ∧
    (("home", "welcome") ∈ check_with_ai oracleA mapA ↔
      ("home", "welcome") ∈ mapA ∧ containsUseless (oracleA "welcome") = false) :=
  ⟨by decide, by decide,
    check_with_ai_removes_exactly_useless oracleA mapA (by decide) "home" "welcome"⟩

/-- C4: curation is monotonic shrinking: the result of `check_with_ai` is
never longer than its input and its key set is a subset of the input key
set (no key is ever added). -/
theorem check_with_ai_shrinking (oracle : String → String)
    (m : List (String × String)) :
    (check_with_ai oracle m).length ≤ m.length ∧
    ∀ k ∈ (check_with_ai oracle m).map Prod.fst, k ∈ m.map Prod.fst := by
  have hs := popKeys_sublist (keys_to_remove oracle m) m
  exact ⟨hs.length_le, fun k hk => (hs.map Prod.fst).subset hk⟩

/-- Witness for C4 at a concrete map and oracle. -/
theorem check_with_ai_shrinking_witness :
    (check_with_ai oracleA mapA).length ≤ mapA.length ∧
    "home" ∈ mapA.map Prod.fst :=
  ⟨(check_with_ai_shrinking oracleA mapA).1,
   (check_with_ai_shrinking oracleA mapA).2 "home" (by decide)⟩

/-- C10: curation never rewrites surviving content: every entry of the
result is an entry of the input (so a retained key still maps to its
original value), and the result is exactly the input restricted to the keys
that were not marked for removal. -/
theorem check_with_ai_preserves_values (oracle : String → String)
    (m : List (String × String)) (hnd : (m.map Prod.fst).Nodup) :
    (∀ kv ∈ check_with_ai oracle m, kv ∈ m) ∧
    check_with_ai oracle m =
      m.filter (fun kv => decide (kv.1 ∉ keys_to_remove oracle m)) := by
  constructor
  · intro kv hkv
    exact (popKeys_sublist _ _).subset hkv
  · rw [check_with_ai_eq_filter oracle m hnd]
    refine (List.filter_congr ?_).symm
    intro kv hkv
    by_cases hu : containsUseless (oracle kv.2) = true
    · have hmem : kv.1 ∈ keys_to_remove oracle m :=
        (mem_keys_to_remove oracle m kv.1).mpr ⟨kv.2, hkv, hu⟩
      simp [hmem, hu]
    · have hmem : kv.1 ∉ keys_to_remove oracle m := by
        intro hmem
        obtain ⟨v, hv, huv⟩ := (mem_keys_to_remove oracle m kv.1).mp hmem
        have heq : (kv.1, v) = kv := keys_inj hnd (kv.1, v) hv kv hkv rfl
        exact hu (by rw [← congrArg Prod.snd heq]; exact huv)
      simp [hmem, hu]

/-- Witness for C10 at a concrete map and oracle. -/
theorem check_with_ai_preserves_values_witness :
    (mapA.map Prod.fst).Nodup ∧
    ((∀ kv ∈ check_with_ai oracleA mapA, kv ∈ mapA) ∧
      check_with_ai oracleA mapA =
        mapA.filter (fun kv => decide (kv.1 ∉ keys_to_remove oracleA mapA))) :=
  ⟨by decide, check_with_ai_preserves_values oracleA mapA (by decide)⟩

/-- The classification loop never touches the dictionary component. -/
theorem classifyPhase_dict {ε : Type} (oracle : String → Except ε String) :
    ∀ (pending : List (String × String)) (dict : List (String × String))
      (acc : List String),
      (classifyPhase oracle dict pending acc).2.2 = dict := by
  intro pending
  induction pending with
  | nil => intro dict acc; rfl
  | cons kv rest ih =>
    intro dict acc
    rw [classifyPhase]
    cases oracle kv.2 with
    | error e => rfl
    | ok ans => exact ih dict _

/-- C9: curation is atomic with respect to oracle failure: if the oracle
raises for any entry, no removal has happened yet, so the dictionary is
unchanged (in particular its key set is unchanged) at the point of the
error. -/
theorem check_with_ai_atomic {ε : Type} (oracle : String → Except ε String)
    (m : List (String × String)) (e : ε)
    (h : (check_with_aiRun oracle m).1 = some e) :
    (check_with_aiRun oracle m).2 = m := by
  have hdict := classifyPhase_dict oracle m m []
  unfold check_with_aiRun at h ⊢
  generalize hg : classifyPhase oracle m m [] = r at h hdict ⊢
  rcases r with ⟨err, acc, dict⟩
  cases err with
  | none => exact Option.noConfusion h
  | some e2 => exact hdict

/-- Witness for C9: on a concrete map whose second entry makes the oracle
raise, the run reports the error and the dictionary is unchanged. -/
theorem check_with_ai_atomic_witness :
    (check_with_aiRun oracleE mapA).1 = some "rate limited" ∧
    (check_with_aiRun oracleE mapA).2 = mapA :=
  ⟨by decide, check_with_ai_atomic oracleE mapA "rate limited" (by decide)⟩

/-- Lookup after a dictionary assignment: the assigned key now maps to the
new value, every other key is unaffected. -/
theorem lookupD_insertDict (k v : String) :
    ∀ d : List (String × String), ∀ k2 : String,
      lookupD (insertDict d k v) k2 = if k2 = k then some v else lookupD d k2 := by
  intro d
  induction d with
  | nil =>
    intro k2
    by_cases h : k2 = k
    · subst h
      simp [insertDict, lookupD, List.find?]
    · have hb : (k == k2) = false := by simpa using Ne.symm h
      simp [insertDict, lookupD, List.find?, hb, h]
  | cons kv rest ih =>
    intro k2
    rw [insertDict]
    by_cases hh : (kv.1 == k) = true
    · have h2 : kv.1 = k := by simpa using hh
      rw [if_pos hh]
      by_cases h : k2 = k
      · subst h
        simp [lookupD, List.find?]
      · have hb : (k == k2) = false := by simpa using Ne.symm h
        have hb2 : (kv.1 == k2) = false := by simpa [h2] using Ne.symm h
        simp [lookupD, List.find?, hb, hb2, h]
    · rw [if_neg hh]
      by_cases h2 : (kv.1 == k2) = true
      · have h3 : k2 ≠ k := by
          intro he
          subst he
          exact hh h2
        simp [lookupD, List.find?, h2, h3]
      · have hb2 : (kv.1 == k2) = false := by simpa using h2
        simp only [lookupD, List.find?, hb2]
        exact ih k2

/-- Keys after a dictionary assignment: the assigned key joins the key set,
nothing else changes. -/
theorem mem_keys_insertDict (k v : String) :
    ∀ d : List (String × String), ∀ x : String,
      x ∈ (insertDict d k v).map Prod.fst ↔ x = k ∨ x ∈ d.map Prod.fst := by
  intro d
  induction d with
  | nil => intro x; simp [insertDict]
  | cons kv rest ih =>
    intro x
    rw [insertDict]
    by_cases hh : (kv.1 == k) = true
    · have h2 : kv.1 = k := by simpa using hh
      rw [if_pos hh]
      simp [h2, List.mem_cons]
    · rw [if_neg hh]
      simp only [List.map_cons, List.mem_cons, ih]
      tauto

/-- A dictionary assignment preserves key uniqueness. -/
theorem nodup_insertDict (k v : String) :
    ∀ d : List (String × String), (d.map Prod.fst).Nodup →
      ((insertDict d k v).map Prod.fst).Nodup := by
  intro d
  induction d with
  | nil => intro _; simp [insertDict]
  | cons kv rest ih =>
    intro hnd
    rw [List.map_cons, List.nodup_cons] at hnd
    obtain ⟨hk, hnd⟩ := hnd
    rw [insertDict]
    by_cases hh : (kv.1 == k) = true
    · have h2 : kv.1 = k := by simpa using hh
      rw [if_pos hh]
      rw [List.map_cons, List.nodup_cons]
      exact ⟨by rw [← h2]; exact hk, hnd⟩
    · have h2 : kv.1 ≠ k := by simpa using hh
      rw [if_neg hh]
      rw [List.map_cons, List.nodup_cons]
      refine ⟨?_, ih hnd⟩
      rw [mem_keys_insertDict]
      rintro (h | h)
      · exact h2 h
      · exact hk h

/-- Lookup in the harvest fold, generalized over the accumulator: the value
found under a key is the fetch of the last processed link deriving that key,
and otherwise the accumulator is consulted. -/
theorem harvest_foldl_lookup (fetch : String → String) :
    ∀ (links : List String) (d : List (String × String)) (k : String),
      lookupD (links.foldl (fun d l => insertDict d (short_link l) (fetch l)) d) k =
        ((links.reverse.find? (fun l => short_link l == k)).map fetch).or (lookupD d k) := by
  intro links
  induction links with
  | nil => intro d k; simp
  | cons l rest ih =>
    intro d k
    rw [List.foldl_cons, ih, List.reverse_cons, List.find?_append]
    rcases hf : rest.reverse.find? (fun l2 => short_link l2 == k) with _ | l2
    · by_cases hp : (short_link l == k) = true
      · have hpe : k = short_link l := (beq_iff_eq.mp hp).symm
        simp [List.find?, hp, lookupD_insertDict, hpe]
      · have hb : (short_link l == k) = false := by simpa using hp
        have hne : k ≠ short_link l := by
          intro he
          rw [he] at hb
          simp at hb
        simp [List.find?, hb, lookupD_insertDict, hne]
    · simp

/-- The harvest fold preserves key uniqueness, starting from any dictionary
with unique keys. -/
theorem harvest_foldl_nodup (fetch : String → String) :
    ∀ (links : List String) (d : List (String × String)),
      (d.map Prod.fst).Nodup →
      (((links.foldl (fun d l => insertDict d (short_link l) (fetch l)) d)).map
        Prod.fst).Nodup := by
  intro links
  induction links with
  | nil => intro d h; exact h
  | cons l rest ih =>
    intro d h
    rw [List.foldl_cons]
    exact ih _ (nodup_insertDict _ _ d h)

/-- Lookup succeeds exactly on the keys of the dictionary. -/
theorem lookupD_isSome :
    ∀ d : List (String × String), ∀ k : String,
      (lookupD d k).isSome = true ↔ k ∈ d.map Prod.fst := by
  intro d
  induction d with
  | nil => intro k; simp [lookupD, List.find?]
  | cons kv rest ih =>
    intro k
    by_cases hh : (kv.1 == k) = true
    · have h2 : kv.1 = k := by simpa using hh
      simp [lookupD, List.find?, hh, h2]
    · have hb : (kv.1 == k) = false := by simpa using hh
      have hne : kv.1 ≠ k := by simpa using hh
      simp only [lookupD, List.find?, hb, List.map_cons, List.mem_cons]
      rw [show (Option.map Prod.snd (rest.find? fun kv => kv.1 == k)).isSome = true ↔
          k ∈ rest.map Prod.fst from ih k]
      constructor
      · exact Or.inr
      · rintro (h | h)
        · exact absurd h.symm hne
        · exact h

/-- C3: the harvest map has exactly one entry per unique derived key: its
key list is duplicate-free, a key is present exactly when some processed
link derives it, and the value stored under a key is the fetched content of
the last processed link deriving that key (last-write-wins: an earlier
colliding entry is silently overwritten). -/
theorem harvest_last_write_wins (fetch : String → String) (links : List String) :
    ((harvest fetch links).map Prod.fst).Nodup ∧
    (∀ k, k ∈ (harvest fetch links).map Prod.fst ↔ ∃ l ∈ links, short_link l = k) ∧
    (∀ k, lookupD (harvest fetch links) k =
      (links.reverse.find? (fun l => short_link l == k)).map fetch) := by
  have hlook : ∀ k, lookupD (harvest fetch links) k =
      (links.reverse.find? (fun l => short_link l == k)).map fetch := by
    intro k
    unfold harvest
    rw [harvest_foldl_lookup fetch links [] k]
    simp [lookupD, List.find?]
  refine ⟨harvest_foldl_nodup fetch links [] (by simp), ?_, hlook⟩
  intro k
  rw [← lookupD_isSome, hlook k, Option.isSome_map', List.find?_isSome]
  constructor
  · rintro ⟨l, hl, hp⟩
    exact ⟨l, List.mem_reverse.mp hl, by simpa using hp⟩
  · rintro ⟨l, hl, hp⟩
    exact ⟨l, List.mem_reverse.mpr hl, by simpa using hp⟩

/-- The head of a `dropWhile` result does not satisfy the dropped predicate. -/
theorem head?_dropWhile_neg (p : Char → Bool) :
    ∀ l : List Char, ∀ c : Char, (l.dropWhile p).head? = some c → p c = false := by
  intro l
  induction l with
  | nil => intro c h; simp [List.dropWhile] at h
  | cons a rest ih =>
    intro c h
    rw [List.dropWhile_cons] at h
    by_cases hp : p a = true
    · rw [if_pos hp] at h
      exact ih c h
    · rw [if_neg hp] at h
      rw [List.head?_cons, Option.some_inj] at h
      rw [← h]
      simpa using hp

/-- C7: link discovery produces a set: a string is a member exactly when it
is the slash-stripped form of some returned href (so duplicate hrefs
collapse to one member), no member ends in a path separator, and two hrefs
differing only in a trailing separator yield the same member. -/
theorem async_get_links_set (hrefs : List String) :
    (∀ s, s ∈ async_get_links hrefs ↔ ∃ h ∈ hrefs, rstripSlash h = s) ∧
    (∀ s ∈ async_get_links hrefs, s.data.getLast? ≠ some '/') ∧
    (∀ h : String, rstripSlash (h ++ "/") = rstripSlash h) := by
  refine ⟨?_, ?_, ?_⟩
  · intro s
    unfold async_get_links
    rw [List.mem_toFinset, List.mem_map]
  · intro s hs
    obtain ⟨h, _, rfl⟩ := List.mem_map.mp (List.mem_toFinset.mp hs)
    unfold rstripSlash
    intro hlast
    rw [show ((⟨(h.data.reverse.dropWhile (fun c => c == '/')).reverse⟩ : String)).data
        = (h.data.reverse.dropWhile (fun c => c == '/')).reverse from rfl] at hlast
    rw [List.getLast?_reverse] at hlast
    have := head?_dropWhile_neg (fun c => c == '/') h.data.reverse '/' hlast
    simp at this
  · intro h
    unfold rstripSlash
    have hd : (h ++ "/").data = h.data ++ ['/'] := by
      rw [String.data_append]
    rw [hd, List.reverse_append]
    simp [List.dropWhile]

/-- Witness for C7 at concrete hrefs: the two hrefs differing in a trailing
separator are one member, which does not end in a separator. -/
theorem async_get_links_set_witness :
    "https://x.y/page" ∈ async_get_links ["https://x.y/page/", "https://x.y/page"] ∧
    ("https://x.y/page").data.getLast? ≠ some '/' :=
  ⟨by decide,
   (async_get_links_set ["https://x.y/page/", "https://x.y/page"]).2.1
     "https://x.y/page" (by decide)⟩

/-- The first piece of a split is the longest separator-free prefix. -/
theorem splitOnChar_headI (sep : Char) :
    ∀ l : List Char, (splitOnChar sep l).headI = l.takeWhile (fun c => c != sep) := by
  intro l
  induction l with
  | nil => rfl
  | cons c rest ih =>
    rw [splitOnChar, List.takeWhile_cons]
    by_cases hc : (c == sep) = true
    · have h2 : (c != sep) = false := by simpa [bne] using hc
      rw [if_pos hc, if_neg (by simp [h2])]
      rfl
    · have h2 : (c != sep) = true := by simpa [bne] using hc
      rw [if_neg hc, if_pos h2]
      show c :: (splitOnChar sep rest).headI = c :: List.takeWhile (fun c => c != sep) rest
      rw [ih]

/-- C6: site-identity derivation is deterministic and, for every seed URL,
returns the first DNS label of the host after stripping a leading `www.`;
on the two spec examples it returns `example` and `blog` respectively. -/
theorem get_container_name_first_label :
    (∀ u : String, get_container_name u = specSiteIdentity u) ∧
    get_container_name "https://www.example.com/" = "example" ∧
    get_container_name "https://blog.example.co.uk/" = "blog" := by
  refine ⟨?_, ?_, ?_⟩
  · intro u
    unfold get_container_name specSiteIdentity
    simp only [splitOnChar_headI]
  · decide
  · decide

/-- Clearing deletes every pre-existing blob: each listed blob removes one
occurrence of its name, so the container empties completely. -/
theorem clearContainer_eq_nil : ∀ bs : List (String × String), clearContainer bs = [] := by
  have haux : ∀ bs : List (String × String),
      List.foldl (fun c (b : String × String) => deleteBlob c b.1) bs bs = [] := by
    intro bs
    induction bs with
    | nil => rfl
    | cons b rest ih =>
      rw [List.foldl_cons]
      have h1 : deleteBlob (b :: rest) b.1 = rest := by
        unfold deleteBlob
        exact List.eraseP_cons_of_pos (by simp)
      rw [h1]
      exact ih
  exact haux

/-- Uploading files whose blob names are fresh and mutually distinct
succeeds and appends exactly those blobs. -/
theorem uploadAll_disjoint :
    ∀ files c : List (String × String),
      ((files.map (fun kv => kv.1 ++ ".txt")).Nodup) →
      (∀ kv ∈ files, (kv.1 ++ ".txt") ∉ c.map Prod.fst) →
      uploadAll files c =
        (none, c ++ files.map (fun kv => (kv.1 ++ ".txt", kv.2))) := by
  intro files
  induction files with
  | nil => intro c _ _; simp [uploadAll]
  | cons kv rest ih =>
    intro c hnd hdisj
    rw [List.map_cons, List.nodup_cons] at hnd
    obtain ⟨hk, hnd⟩ := hnd
    rw [uploadAll]
    have hany : (c.any (fun b => b.1 == kv.1 ++ ".txt")) = false := by
      rw [List.any_eq_false]
      intro b hb
      simp only [beq_iff_eq]
      intro he
      exact hdisj kv (List.mem_cons_self kv rest) (he ▸ List.mem_map_of_mem Prod.fst hb)
    rw [if_neg (by simp [hany])]
    rw [ih (c ++ [(kv.1 ++ ".txt", kv.2)]) hnd ?_]
    · simp
    · intro kv2 hkv2
      rw [List.map_append, List.mem_append]
      rintro (h | h)
      · exact hdisj kv2 (List.mem_cons_of_mem kv hkv2) h
      · apply hk
        have h2 : kv2.1 ++ ".txt" = kv.1 ++ ".txt" := by simpa using h
        rw [← h2]
        exact List.mem_map_of_mem (fun kv => kv.1 ++ ".txt") hkv2

/-- Appending the same suffix to two strings preserves distinctness of the
originals. -/
theorem append_txt_injective : Function.Injective (fun k : String => k ++ ".txt") := by
  intro a b h
  have h0 : a ++ ".txt" = b ++ ".txt" := h
  have h2 : a.data ++ ".txt".data = b.data ++ ".txt".data := by
    rw [← String.data_append, ← String.data_append, h0]
  exact String.ext (List.append_cancel_right h2)

/-- C5: writing to a container that already exists is recovered locally (no
error escapes): every pre-existing blob is deleted before uploading, and
afterwards the container holds exactly one `<key>.txt` blob per entry of the
files map and none of the old blobs. -/
theorem create_or_update_blob_replaces (files bs : List (String × String))
    (hnd : (files.map Prod.fst).Nodup) :
    create_or_update_blob files (some bs) =
      (none, files.map (fun kv => (kv.1 ++ ".txt", kv.2))) ∧
    ∀ b ∈ bs, b.1 ∉ files.map (fun kv => kv.1 ++ ".txt") →
      b.1 ∉ ((create_or_update_blob files (some bs)).2.map Prod.fst) := by
  have hnames : (files.map (fun kv => kv.1 ++ ".txt")).Nodup := by
    have h1 : files.map (fun kv => kv.1 ++ ".txt") =
        (files.map Prod.fst).map (fun k => k ++ ".txt") := by
      rw [List.map_map]
      rfl
    rw [h1]
    exact hnd.map append_txt_injective
  have hmain : create_or_update_blob files (some bs) =
      (none, files.map (fun kv => (kv.1 ++ ".txt", kv.2))) := by
    show uploadAll files (clearContainer bs) = _
    rw [clearContainer_eq_nil]
    rw [uploadAll_disjoint files [] hnames (by simp)]
    simp
  refine ⟨hmain, ?_⟩
  intro b _ hbn
  rw [hmain]
  simp only [List.map_map]
  intro hmem
  apply hbn
  obtain ⟨kv, hkv, hkv2⟩ := List.mem_map.mp hmem
  rw [← show (kv.1 ++ ".txt") = b.1 from hkv2]
  exact List.mem_map_of_mem (fun kv => kv.1 ++ ".txt") hkv

/-- Witness for C5: on a concrete pre-existing container with two old blobs
and two new files, the result holds exactly the two new `<key>.txt` blobs
and the old blob names are gone. -/
theorem create_or_update_blob_replaces_witness :
    (newFiles.map Prod.fst).Nodup ∧
    create_or_update_blob newFiles (some oldBlobs) =
      (none, newFiles.map (fun kv => (kv.1 ++ ".txt", kv.2))) ∧
    ("stale.txt", "old one") ∈ oldBlobs ∧
    "stale.txt" ∉ ((create_or_update_blob newFiles (some oldBlobs)).2.map Prod.fst) :=
  ⟨by decide,
   (create_or_update_blob_replaces newFiles oldBlobs (by decide)).1,
   by decide,
   (create_or_update_blob_replaces newFiles oldBlobs (by decide)).2
     ("stale.txt", "old one") (by decide) (by decide)⟩

/-- C8: the pipeline is fail-fast with no partial persistence: if link
discovery, any single page fetch during harvest, or any classification call
raises, the error propagates (the run result is that error) and the sink
container is exactly as it was before the run — nothing is written. -/
theorem runPipeline_fail_fast {ε : Type} (discovered : Except ε (List String))
    (fetch : String → Except ε String) (oracle : String → Except ε String)
    (container : Option (List (String × String))) (e : ε)
    (h : (runPipeline discovered fetch oracle container).1 = Except.error e) :
    (runPipeline discovered fetch oracle container).2 = container := by
  cases discovered with
  | error e2 => rfl
  | ok links =>
    replace h : (runAfterDiscovery fetch oracle links container).1 = Except.error e := h
    show (runAfterDiscovery fetch oracle links container).2 = container
    unfold runAfterDiscovery at h ⊢
    cases hh : harvestE fetch links [] with
    | error e2 => rfl
    | ok m =>
      rw [hh] at h
      replace h : (runAfterHarvest oracle m container).1 = Except.error e := h
      show (runAfterHarvest oracle m container).2 = container
      unfold runAfterHarvest at h ⊢
      cases hc : curateE oracle m with
      | error e2 => rfl
      | ok m2 =>
        rw [hc] at h
        have h2 : (Except.ok (create_or_update_blob m2 container).1 :
            Except ε (Option Unit)) = Except.error e := h
        exact Except.noConfusion h2

/-- Witness for C8: a run whose link discovery raises reports the error and
leaves a concrete non-empty container untouched. -/
theorem runPipeline_fail_fast_witness :
    (runPipeline (Except.error "seed fetch failed") oracleE oracleE
      (some oldBlobs)).1 = Except.error "seed fetch failed" ∧
    (runPipeline (Except.error "seed fetch failed") oracleE oracleE
      (some oldBlobs)).2 = some oldBlobs :=
  ⟨rfl,
   runPipeline_fail_fast (Except.error "seed fetch failed") oracleE oracleE
     (some oldBlobs) "seed fetch failed" rfl⟩

/-- C1 counterexample: the claim fails on the code.  First, the computed key
is not truncated: a 60-character URL yields a 60-character key.  Second, the
code does not strip the `http://` scheme (only the literal substrings
`https://www.`, `.com` and `https:`), so on `http://site.org/page` the code
key differs from the key the claimed algorithm produces. -/
theorem short_link_claim_counterexample :
    50 < (short_link ⟨List.replicate 60 'a'⟩).length ∧
    short_link "http://site.org/page" ≠ specDeriveKey "http://site.org/page" := by
  constructor
  · rw [short_link_replicate]
    show 50 < (List.replicate 60 'a').length
    simp
  · have h1 : short_link "http://site.org/page" = "http:__site.org_page" := by
      simp [short_link, replaceAll]
    have h2 : specDeriveKey "http://site.org/page" = "site.org_page" := by decide
    rw [h1, h2]
    decide

/-- C1 (amended): the key derivation `short_link` is a pure function of the
URL string that removes every occurrence of the literal substrings
`https://www.`, `.com` and `https:` (in that order) and then replaces every
`/` with `_`; consequently the key never contains a path separator, and on a
well-formed `https://www.` URL it behaves as the spec describes; but no
truncation is applied, so the key length is unbounded (for every bound there
is a URL whose key is longer), and a `http://` scheme or a bare leading
`www.` is not removed. -/
theorem short_link_amended :
    (∀ u : String, '/' ∉ (short_link u).data) ∧
    (∀ n : Nat, ∃ u : String, n < (short_link u).length) ∧
    short_link "https://www.site.com/a/b" = "site_a_b" := by
  refine ⟨?_, ?_, by simp [short_link, replaceAll]⟩
  · intro u
    show '/' ∉ replaceAll "/".toList "_".toList _
    have hs : "/".toList = ['/'] := by decide
    have hu : "_".toList = ['_'] := by decide
    rw [hs, hu, replaceAll_singleton]
    simp only [List.mem_map]
    rintro ⟨c, _, hc⟩
    by_cases h : c = '/' <;> simp [h] at hc
  · intro n
    refine ⟨⟨List.replicate (n + 1) 'a'⟩, ?_⟩
    rw [short_link_replicate]
    show n < (List.replicate (n + 1) 'a').length
    simp

/-- Witness for C1 (amended) at concrete inputs: no separator in a concrete
key, and some key is longer than 50 characters. -/
theorem short_link_amended_witness :
    ('/' ∉ (short_link "https://www.site.com/a/b").data) ∧
    ∃ u : String, 50 < (short_link u).length :=
  ⟨short_link_amended.1 "https://www.site.com/a/b", short_link_amended.2.1 50⟩

/-- Witness for C3 at a concrete link list with a key collision: the stored
value under the collided key is that of the last processed link. -/
theorem harvest_last_write_wins_witness :
    lookupD (harvest fetchA linksA) "site_a" =
      (linksA.reverse.find? (fun l => short_link l == "site_a")).map fetchA :=
  (harvest_last_write_wins fetchA linksA).2.2 "site_a"

